import Mathlib

/-!
Verification of the query-weaver SQL composition library.

This file is a shallow embedding of `src/query-weaver.ts` (with
`src/string-reader.ts`): the fragment tree, the SQL-context-aware
scanner (`pgContextHandler` built on `StringReader`), the five render
modes (`text`, `values`, `sql`, `statement`, `embed`), and the builder
functions (`buildKeys`, `buildValues`, `buildInsert`).

JavaScript strings are modelled as Lean `String` / `List Char`;
JavaScript runtime values interpolated into templates are modelled by
the inductive `JSValue`; `undefined` is modelled as `Option.none`
where it can occur.  Mutable state (the scan context threaded through
a render, the placeholder counter, the bound-values array) is modelled
by explicit state passing.
-/

/-- Characters written via code points to keep the embedding plain ASCII:
the single-quote character. -/
def squoteChar : Char := Char.ofNat 39

/-- The backslash character. -/
def backslashChar : Char := Char.ofNat 92

/-- A JavaScript runtime value as interpolated into a template.
`objJ` is an object carrying a `toJSON` method (modelled by the string
that method returns); `obj` is a plain object without one. -/
inductive JSValue where
  | null
  | bool (b : Bool)
  | num (n : Int)
  | str (s : String)
  | arr (elems : List JSValue)
  | obj (fields : List (String × JSValue))
  | objJ (fields : List (String × JSValue)) (jsonRepr : String)

/-- JavaScript `String(x)` for the scalar values that reach the final
branch of `pgString` (numbers and strings; `null`, booleans, arrays and
objects are dispatched earlier), and the default `Object.prototype.toString`
result for plain objects. -/
def jsStringOf : JSValue → String
  | .null => "null"
  | .bool b => if b then "true" else "false"
  | .num n => toString n
  | .str s => s
  | .arr _ => ""
  | .obj _ => "[object Object]"
  | .objJ _ _ => "[object Object]"

/-- Modelled from the spec: `quoteLiteral` lives in `src/quote.ts`, which is
not under `src/`; the spec describes the default literal quoting as standard
SQL single-quote literal quoting with doubling for embedded quotes. -/
def quoteLiteral (s : String) : String :=
  "\x27" ++ String.mk (s.data.flatMap (fun c => if c = squoteChar then [c, c] else [c])) ++ "\x27"

/-- Modelled from the spec: `quoteIdent` lives in `src/quote.ts`, which is
not under `src/`; the spec describes the default identifier quoting as
standard SQL double-quote identifier quoting, and the repository tests show
plain lower-case identifiers rendered bare, so quoting is applied only when
an identifier is not a plain lower-case word. -/
def quoteIdent (s : String) : String :=
  if s ≠ "" && s.data.all (fun c => (Char.ofNat 97 ≤ c && c ≤ Char.ofNat 122) || c = Char.ofNat 95 || c.isDigit) && !(s.data.head?.elim false Char.isDigit) then s
  else "\"" ++ String.mk (s.data.flatMap (fun c => if c = '"' then [c, c] else [c])) ++ "\""

/-- Split a character list on a separator character, JavaScript
`String.prototype.split` style (an empty input yields one empty part). -/
def splitListOn (sep : Char) : List Char → List (List Char)
  | [] => [[]]
  | c :: cs =>
    if c = sep then [] :: splitListOn sep cs
    else
      match splitListOn sep cs with
      | [] => [[c]]
      | g :: gs => (c :: g) :: gs

/-- `pgIdent` from query-weaver.ts: split a dotted name on `.` and quote
each part independently. -/
def pgIdent (s : String) : String :=
  String.intercalate "." ((splitListOn '.' s.data).map (fun p => quoteIdent (String.mk p)))

mutual

/-- `pgString` from query-weaver.ts: the fallback value-to-SQL-literal
function used by the embed render mode.  `null` renders as `NULL`, booleans
as `true`/`false`, arrays as `ARRAY[...]` recursively; an object is rendered
via its `toJSON` method if it has one and via its default string conversion
otherwise, passed through `quoteLiteral`; any other value is passed through
`String(...)` and `quoteLiteral`. -/
def pgString : JSValue → String
  | .null => "NULL"
  | .bool b => if b then "true" else "false"
  | .arr es => "ARRAY[" ++ String.intercalate "," (pgStringList es) ++ "]"
  | .obj fs => quoteLiteral (jsStringOf (.obj fs))
  | .objJ _ j => quoteLiteral j
  | .num n => quoteLiteral (jsStringOf (.num n))
  | .str s => quoteLiteral (jsStringOf (.str s))

/-- `pgString` mapped over the elements of an array value. -/
def pgStringList : List JSValue → List String
  | [] => []
  | e :: es => pgString e :: pgStringList es

end

/-- JSON string encoding (double quotes, escaping quote and backslash),
used to state what `JSON.stringify` produces on a string. -/
def jsonEncodeString (s : String) : String :=
  "\"" ++ String.mk (s.data.flatMap
    (fun c => if c = backslashChar || c = '"' then [backslashChar, c] else [c])) ++ "\""

mutual

/-- JavaScript `JSON.stringify`, restricted to the values of `JSValue`.
This is the JSON stringification the spec refers to; the source never
applies it inside `pgString`. -/
def jsonStringify : JSValue → String
  | .null => "null"
  | .bool b => if b then "true" else "false"
  | .num n => toString n
  | .str s => jsonEncodeString s
  | .arr es => "[" ++ String.intercalate "," (jsonStringifyList es) ++ "]"
  | .obj fs => "\x7b" ++ String.intercalate "," (jsonStringifyFields fs) ++ "\x7d"
  | .objJ _ j => jsonEncodeString j

/-- `jsonStringify` over array elements. -/
def jsonStringifyList : List JSValue → List String
  | [] => []
  | e :: es => jsonStringify e :: jsonStringifyList es

/-- `jsonStringify` over object fields. -/
def jsonStringifyFields : List (String × JSValue) → List String
  | [] => []
  | (k, v) :: fs => (jsonEncodeString k ++ ":" ++ jsonStringify v) :: jsonStringifyFields fs

end

/-- The scan context from query-weaver.ts (`type Context`), threaded through
raw-text leaves during one render pass.  All fields default to the falsy
values of the fresh object literal `{}` the source allocates per render. -/
structure Context where
  inLineComment : Bool := false
  inBlockComment : Nat := 0
  inSingleQuote : Bool := false
  inEscapedSingleQuote : Bool := false
  dollarQuoted : Option String := none
deriving DecidableEq, Repr

/-- The all-empty context `{}` allocated by `#compile` for each render. -/
def emptyContext : Context := {}

/-- `shouldIgnoreValue` from query-weaver.ts: a value leaf is suppressed when
the context lies inside a dollar-quoted block, a line comment, a block
comment, a single-quoted literal, or an escaped single-quoted literal.
(The source also accepts a missing context, which the compile pipeline never
produces; the embedding always passes a context.) -/
def shouldIgnoreValue (ctx : Context) : Bool :=
  ctx.dollarQuoted.isSome || ctx.inLineComment || (ctx.inBlockComment != 0)
    || ctx.inSingleQuote || ctx.inEscapedSingleQuote

/-- `StringReader.skipUntil` with a plain-string pattern: index of the first
occurrence of `needle` in `hay` (`String.indexOf`). -/
def findSub (needle : List Char) : List Char → Option Nat
  | [] => if needle.isPrefixOf ([] : List Char) then some 0 else none
  | c :: cs =>
    if needle.isPrefixOf (c :: cs) then some 0
    else (findSub needle cs).map (· + 1)

/-- `StringReader.skipUntil` with a character-class pattern: index of the
first character belonging to `set`. -/
def findCharIn (set : List Char) : List Char → Option Nat
  | [] => none
  | c :: cs => if c ∈ set then some 0 else (findCharIn set cs).map (· + 1)

/-- `StringReader.skipUntil` with the two-token pattern used inside block
comments: index of the first occurrence of an opener or closer. -/
def findTwo : List Char → Option Nat
  | [] => none
  | c :: cs =>
    if [Char.ofNat 47, Char.ofNat 42].isPrefixOf (c :: cs)
        || [Char.ofNat 42, Char.ofNat 47].isPrefixOf (c :: cs) then some 0
    else (findTwo cs).map (· + 1)

/-- A character matched by the regex class `[a-zA-Z]`. -/
def isTagLetter (c : Char) : Bool :=
  (Char.ofNat 97 ≤ c && c ≤ Char.ofNat 122) || (Char.ofNat 65 ≤ c && c ≤ Char.ofNat 90)

/-- The sticky regex match of a dollar-quote tag at the current position:
a dollar sign, a run of ASCII letters, and a closing dollar sign. -/
def dollarTag : List Char → Option (List Char)
  | c :: cs =>
    if c = '$' then
      let letters := cs.takeWhile isTagLetter
      match cs.drop letters.length with
      | d :: _ => if d = '$' then some ('$' :: (letters ++ ['$'])) else none
      | [] => none
    else none
  | [] => none

/-- One iteration of the `while` loop of `pgContextHandler`, acting on the
remaining input.  `none` models the `break` paths (pattern not found before
end of text); `some` carries the updated context and remaining input. -/
def scanStep (ctx : Context) (rem : List Char) : Option (Context × List Char) :=
  match ctx.dollarQuoted with
  | some tag =>
    match findSub tag.data rem with
    | none => none
    | some i => some ({ ctx with dollarQuoted := none }, rem.drop (i + tag.length))
  | none =>
    if ctx.inEscapedSingleQuote then
      match findCharIn [backslashChar, squoteChar] rem with
      | none => none
      | some i =>
        let r := rem.drop i
        if r.take 2 = [squoteChar, squoteChar] then some (ctx, r.drop 2)
        else if r.take 1 = [backslashChar] then some (ctx, r.drop 2)
        else some ({ ctx with inEscapedSingleQuote := false }, r.drop 1)
    else if ctx.inSingleQuote then
      match findSub [squoteChar] rem with
      | none => none
      | some i =>
        let r := rem.drop i
        if r.take 2 = [squoteChar, squoteChar] then some (ctx, r.drop 2)
        else some ({ ctx with inSingleQuote := false }, r.drop 1)
    else if ctx.inBlockComment != 0 then
      match findTwo rem with
      | none => none
      | some i =>
        let r := rem.drop i
        if r.take 2 = [Char.ofNat 47, Char.ofNat 42] then
          some ({ ctx with inBlockComment := ctx.inBlockComment + 1 }, r.drop 2)
        else
          some ({ ctx with inBlockComment := ctx.inBlockComment - 1 }, r.drop 2)
    else if ctx.inLineComment then
      match findSub ['\n'] rem with
      | none => none
      | some i => some ({ ctx with inLineComment := false }, rem.drop (i + 1))
    else
      match findCharIn ['-', '$', 'E', squoteChar, '/'] rem with
      | none => none
      | some i =>
        let r := rem.drop i
        match dollarTag r with
        | some tag => some ({ ctx with dollarQuoted := some (String.mk tag) }, r.drop tag.length)
        | none =>
          if r.take 2 = ['E', squoteChar] then
            some ({ ctx with inEscapedSingleQuote := true }, r.drop 2)
          else if r.take 1 = [squoteChar] then
            some ({ ctx with inSingleQuote := true }, r.drop 1)
          else if r.take 2 = ['-', '-'] then
            some ({ ctx with inLineComment := true }, r.drop 2)
          else if r.take 2 = [Char.ofNat 47, Char.ofNat 42] then
            some ({ ctx with inBlockComment := 1 }, r.drop 2)
          else some (ctx, r.drop 1)

/-- The `while (!r.eof())` loop of `pgContextHandler`, with explicit fuel.
Every iteration of the source loop either breaks or consumes at least one
character, so any fuel exceeding the input length computes the loop's
result. -/
def scanLoop : Nat → Context → List Char → Context
  | 0, ctx, _ => ctx
  | Nat.succ fuel, ctx, rem =>
    if rem.isEmpty then ctx
    else
      match scanStep ctx rem with
      | none => ctx
      | some (ctx2, rem2) => scanLoop fuel ctx2 rem2

/-- `pgContextHandler` from query-weaver.ts: consume `s` left to right,
updating the scan context. -/
def pgContextHandler (ctx : Context) (s : String) : Context :=
  scanLoop (s.length + 1) ctx s.data

/-- The sewing pattern of a `QueryFragments` composite
(`QueryFragmentsOptions` in the source).  The source field names
`prefix`/`suffix`/`empty` are Lean keywords, so they are rendered here as
`pre`/`suf`/`emptyStr`.  The `wrapperFn` hook defaults to the identity and
is overridden only by the `json` builder, which no claim concerns, so it is
not modelled. -/
structure SewingPattern where
  pre : String := ""
  glue : String := ""
  suf : String := ""
  emptyStr : String := ""
deriving DecidableEq, Repr

/-- A fragment tree: `raw` is `QueryFragmentRawString`, `value` is
`QueryFragmentValue`, `ident` is `QueryFragmentIdent`, and `frags` is the
composite `QueryFragments` with its child list and sewing pattern. -/
inductive QueryFragment where
  | raw (s : String)
  | value (v : JSValue)
  | ident (name : String)
  | frags (children : List QueryFragment) (opts : SewingPattern)

/-- The five render modes exposed by the accessors of
`QueryFragmentBase` (`text`, `values`, `sql`, `statement`, `embed`). -/
inductive RenderMode where
  | text
  | values
  | sql
  | statement
  | embed
deriving DecidableEq, Repr

/-- The mutable state of one render pass: the scan context, the placeholder
counter (`idx` in the `text`/`statement` getters, starting at 1), and the
bound-values array of the `values` getter. -/
structure RenderState where
  ctx : Context
  idx : Nat
  vals : List JSValue

/-- The fresh state each accessor allocates: context `{}`, counter 1,
empty values array. -/
def freshState : RenderState := { ctx := emptyContext, idx := 1, vals := [] }

/-- What a non-suppressed value leaf does in each mode: `text` emits `$idx`
and increments the counter, `values` pushes the value and emits the empty
string, `sql` emits `?`, `statement` emits `:idx` and increments, `embed`
emits `pgString` of the value. -/
def modeEmit (m : RenderMode) (v : JSValue) (st : RenderState) : String × RenderState :=
  match m with
  | .text => ("$" ++ toString st.idx, { st with idx := st.idx + 1 })
  | .values => ("", { st with vals := st.vals ++ [v] })
  | .sql => ("?", st)
  | .statement => (":" ++ toString st.idx, { st with idx := st.idx + 1 })
  | .embed => (pgString v, st)

/-- Instrumentation record: one event per value leaf visited during a
render, recording the scan context at the leaf, the leaf's value, the
string the leaf emitted, and the bound-values array before and after. -/
structure ValueEvent where
  ctx : Context
  value : JSValue
  emitted : String
  valsBefore : List JSValue
  valsAfter : List JSValue

mutual

/-- The render walk (`toString` of the fragment classes, as driven by
`#compile`): raw leaves feed the scanner and emit themselves; value leaves
are suppressed to the empty string when `shouldIgnoreValue` holds and
otherwise emit per mode; identifier leaves emit `pgIdent` (the `#compile`
pipeline passes no `identFn`, so identifiers are never suppressed);
composites render children left to right threading the state, drop empty
child strings, join with the glue, and fall back to `emptyStr` when the
joined string is empty.  The event list is instrumentation only — it does
not influence the output. -/
def render (m : RenderMode) : QueryFragment → RenderState → String × RenderState × List ValueEvent
  | .raw s, st => (s, { st with ctx := pgContextHandler st.ctx s }, [])
  | .value v, st =>
    if shouldIgnoreValue st.ctx then
      ("", st, [{ ctx := st.ctx, value := v, emitted := "",
                  valsBefore := st.vals, valsAfter := st.vals }])
    else
      let (out, st2) := modeEmit m v st
      (out, st2, [{ ctx := st.ctx, value := v, emitted := out,
                    valsBefore := st.vals, valsAfter := st2.vals }])
  | .ident name, st => (pgIdent name, st, [])
  | .frags cs opts, st =>
    let res := renderList m cs st
    let joined := String.intercalate opts.glue (res.1.filter (fun x => x != ""))
    if joined = "" then (opts.emptyStr, res.2.1, res.2.2)
    else (opts.pre ++ joined ++ opts.suf, res.2.1, res.2.2)

/-- Render a child list left to right, threading the state. -/
def renderList (m : RenderMode) : List QueryFragment → RenderState → List String × RenderState × List ValueEvent
  | [], st => ([], st, [])
  | f :: fs, st =>
    let r1 := render m f st
    let r2 := renderList m fs r1.2.1
    (r1.1 :: r2.1, r2.2.1, r1.2.2 ++ r2.2.2)

end

namespace QueryFragment

/-- The `.text` accessor: placeholder text, fresh context per access. -/
def text (f : QueryFragment) : String := (render .text f freshState).1

/-- The `.values` accessor: the bound-values array, fresh context per access. -/
def values (f : QueryFragment) : List JSValue := (render .values f freshState).2.1.vals

/-- The `.sql` accessor: `?`-placeholder text, fresh context per access. -/
def sqlText (f : QueryFragment) : String := (render .sql f freshState).1

/-- The `.statement` accessor: `:N`-placeholder text, fresh context per access. -/
def statement (f : QueryFragment) : String := (render .statement f freshState).1

/-- The `.embed` accessor: literal-inlined text, fresh context per access. -/
def embed (f : QueryFragment) : String := (render .embed f freshState).1

/-- The value-leaf events of a render in a given mode, from the fresh state. -/
def events (m : RenderMode) (f : QueryFragment) : List ValueEvent :=
  (render m f freshState).2.2

end QueryFragment

/-- An argument interpolated into a template: `undefined`, a plain value,
or an already-built fragment. -/
inductive Interp where
  | undef
  | val (v : JSValue)
  | frag (f : QueryFragment)

/-- `makeValue` from query-weaver.ts: `undefined` and fragments are
returned unchanged (`none` models `undefined`); anything else is wrapped
in a `QueryFragmentValue` leaf. -/
def makeValue : Interp → Option QueryFragment
  | .undef => none
  | .frag f => some f
  | .val v => some (QueryFragment.value v)

/-- An argument to `push`/`append` (and the `appendix` of the statement
builders): `undefined`, a string, or a fragment. -/
inductive PushArg where
  | undef
  | str (s : String)
  | frag (f : QueryFragment)

/-- `makeRaw` from query-weaver.ts on a `push` argument: `undefined` and
fragments unchanged, a string becomes a raw-text leaf. -/
def makeRaw : PushArg → Option QueryFragment
  | .undef => none
  | .frag f => some f
  | .str s => some (.raw s)

/-- `QueryFragments.push` (alias `append`): map `makeRaw` over the
arguments, drop the `undefined` ones, and append to the child list.
On a non-composite this is the identity (the method exists only on
`QueryFragments`). -/
def fragPush (f : QueryFragment) (args : List PushArg) : QueryFragment :=
  match f with
  | .frags cs opts => .frags (cs ++ args.filterMap makeRaw) opts
  | other => other

/-- `QueryFragments.setSewingPattern`: replace prefix, glue, suffix and
empty-replacement. -/
def setSewingPattern (f : QueryFragment) (pre glue suf emptyStr : String) : QueryFragment :=
  match f with
  | .frags cs _ => .frags cs { pre := pre, glue := glue, suf := suf, emptyStr := emptyStr }
  | other => other

/-- `QueryFragments.join`: set the glue. -/
def joinGlue (f : QueryFragment) (glue : String) : QueryFragment :=
  match f with
  | .frags cs opts => .frags cs { opts with glue := glue }
  | other => other

/-- `sewTemplateTextsAndValues` from query-weaver.ts: interleave the text
segments with the interpolated values (`[t0, v0, t1, v1, ..., tn]`),
erroring unless there is exactly one more text than values. -/
def sewTemplateTextsAndValues (texts vals : List (Option QueryFragment)) :
    Except String (List (Option QueryFragment)) :=
  if texts.length ≠ vals.length + 1 then .error "Invalid call of the function"
  else .ok (texts.enum.flatMap
    (fun p => if p.1 = 0 then [p.2] else [vals.getD (p.1 - 1) none, p.2]))

/-- The template-tag path of `sql`: texts through `makeRaw`, values through
`makeValue`, sewn together; the sewn list becomes one inner composite
(pushed through the constructor, which drops `undefined`s), wrapped in an
outer composite. -/
def sqlTemplate (texts : List String) (vals : List Interp) : Except String QueryFragment :=
  (sewTemplateTextsAndValues (texts.map (fun t => some (.raw t))) (vals.map makeValue)).map
    (fun sewn => .frags [.frags (sewn.filterMap id) {}] {})

/-- The normal-call path of `sql`: each argument through `makeValue`, the
results (minus `undefined`s) as the children of one composite. -/
def sqlCall (vals : List Interp) : QueryFragment :=
  .frags (vals.filterMap makeValue) {}

/-- A row object (`FieldValues`): ordered own keys with values that are
either a runtime value or `undefined` (`none`).  JavaScript object keys are
unique, so `Object.fromEntries` of filtered entries is plain filtering. -/
def Row : Type := List (String × Option JSValue)

/-- JavaScript `Object.values` on a row. -/
def rowValues (row : Row) : List (Option JSValue) := row.map Prod.snd

/-- `buildKeys` from query-weaver.ts on an array of rows (the source wraps a
single object into a one-element array first, and rejects empty input and
non-object first elements — in this model rows are always objects, so only
emptiness errors).  Each row drops its `undefined`-valued entries; the key
list is rendered from the first row's remaining keys, and an error is raised
when any row's comma-joined key list differs from the first's. -/
def buildKeys (fvs : List Row) : Except String QueryFragment :=
  if fvs.length = 0 then .error "Invalid call of the function"
  else
    let filtered := fvs.map (fun fv => fv.filter (fun p => p.2.isSome))
    let ks := (filtered.headD []).map Prod.fst
    let sig := String.intercalate "," ks
    if filtered.any (fun fv => String.intercalate "," (fv.map Prod.fst) != sig) then
      .error "buildKeys: All objects must have the same keys"
    else
      .ok (setSewingPattern (.frags (ks.map (fun k => .ident k)) {}) "(" ", " ")" "")

/-- `buildValues` from query-weaver.ts on an array of value rows.  A row
that arrives as a JavaScript array passes through `Object.values` unchanged,
and an object row contributes its values list, so the model takes the rows
as lists of possibly-`undefined` values.  Empty input errors; rows of
unequal length error; otherwise each row becomes a `, `-joined composite
of its (non-`undefined`) value leaves, wrapped as `(...), (...)` and
prefixed with `VALUES `. -/
def buildValues (fvs : List (List (Option JSValue))) : Except String QueryFragment :=
  if fvs.length = 0 then .error "buildValues: Array must contain elements at least one"
  else
    let sig := (fvs.headD []).length
    if fvs.any (fun row => row.length != sig) then
      .error "buildValues: Array must all be the same length"
    else
      let inner := fvs.map (fun v =>
        joinGlue (QueryFragment.frags (v.filterMap (fun ov => ov.map QueryFragment.value)) {}) ", ")
      let vals := setSewingPattern (.frags inner {}) "(" "), (" ")" ""
      sqlTemplate ["VALUES ", ""] [.frag vals]

/-- `buildInsert` from query-weaver.ts (the source wraps a single row into a
one-element array first): key list from `buildKeys`, value rows from
`Object.values` of each row (the `undefined` entries are dropped later by
`makeValue` inside `buildValues`), sewn into an INSERT statement with the
optional appendix pushed on and the children joined by a space. -/
def buildInsert (table : String) (fvs : List Row) (appendix : PushArg) :
    Except String QueryFragment := do
  let keys ← buildKeys fvs
  let vals ← buildValues (fvs.map rowValues)
  let base ← sqlTemplate ["INSERT INTO ", " ", " ", ""]
    [.frag (.ident table), .frag keys, .frag vals]
  pure (joinGlue (fragPush base [appendix]) " ")

/-- A run of the scanner loop with just enough fuel: `pgContextHandler`
unpacked to character lists. -/
def scanRun (ctx : Context) (rem : List Char) : Context :=
  scanLoop (rem.length + 1) ctx rem

/-- A context the scanner can actually be in: a dollar-quote tag, when
set, is a nonempty string (the source only ever stores tags of the shape
`$letters$`). -/
def WfCtx (c : Context) : Prop := ∀ tag, c.dollarQuoted = some tag → tag ≠ ""

def suppressedEventExample : ValueEvent :=
  { ctx := { emptyContext with inSingleQuote := true }, value := .num 1, emitted := "",
    valsBefore := [], valsAfter := [] }

/-- The mode-independent part of a value-leaf event: the scan context at
the leaf and the leaf's value. -/
def eventKey (e : ValueEvent) : Context × JSValue := (e.ctx, e.value)

/-- A value-leaf event that was not suppressed. -/
def nonSuppressed (e : ValueEvent) : Bool := !shouldIgnoreValue e.ctx

/-- The tail of the sewn child list (value-then-text pairs), as produced by
the index-driven `flatMap` of `sewTemplateTextsAndValues`. -/
def sewRest : List (Option QueryFragment) → List (Option QueryFragment) → List (Option QueryFragment)
  | [], _ => []
  | t :: ts, vs => vs.headD none :: t :: sewRest ts (vs.drop 1)

/-- The tail of the children a template call builds, with `undefined`
interpolations contributing no leaf. -/
def templateChildrenRest : List String → List Interp → List QueryFragment
  | [], _ => []
  | t :: ts, [] => .raw t :: templateChildrenRest ts []
  | t :: ts, v :: vs => (makeValue v).toList ++ (.raw t :: templateChildrenRest ts vs)

/-- The children a template call builds: the leading text leaf followed by
alternating (lifted value, text leaf) pairs, `undefined`s dropped. -/
def templateChildren : List String → List Interp → List QueryFragment
  | [], _ => []
  | t :: ts, vs => .raw t :: templateChildrenRest ts vs

theorem scan_sanity_plain :
    pgContextHandler emptyContext "SELECT 1" = emptyContext := by decide

theorem scan_sanity_quote :
    (pgContextHandler emptyContext "a = \x27").inSingleQuote = true := by decide

theorem scan_sanity_comment :
    (pgContextHandler emptyContext "/* x /* y */").inBlockComment = 1 := by decide

theorem scan_sanity_dollar :
    (pgContextHandler emptyContext "$tag$ abc").dollarQuoted = some "$tag$" := by decide

theorem render_sanity_readme :
    (sqlTemplate ["SELECT * FROM foobar WHERE foo = ", " AND bar = ", ""]
        [.val (.num 1), .val (.str "Bar")]).map
      (fun f => (f.text, f.statement, f.sqlText, f.embed)) =
    .ok ("SELECT * FROM foobar WHERE foo = $1 AND bar = $2",
         "SELECT * FROM foobar WHERE foo = :1 AND bar = :2",
         "SELECT * FROM foobar WHERE foo = ? AND bar = ?",
         "SELECT * FROM foobar WHERE foo = \x271\x27 AND bar = \x27Bar\x27") := by
  rfl

theorem builders_sanity_keys :
    (buildKeys [[("a", some (.num 1)), ("b", some (.num 2)), ("c", some (.str "3"))]]).map
      QueryFragment.text = .ok "(a, b, c)" := by rfl

theorem builders_sanity_values :
    (buildValues [[some (.num 1), some (.num 2), some (.str "3")]]).map
      (fun f => (f.text, f.values)) =
    .ok ("VALUES ($1, $2, $3)", [.num 1, .num 2, .str "3"]) := by rfl

theorem builders_sanity_insert_undefined :
    (buildInsert "test" [[("a", none), ("b", some (.num 10)), ("c", some (.str "20"))]] .undef).map
      (fun f => (f.text, f.embed)) =
    .ok ("INSERT INTO test (b, c) VALUES ($1, $2)",
         "INSERT INTO test (b, c) VALUES (\x2710\x27, \x2720\x27)") := by rfl

theorem pgContextHandler_eq_scanRun (ctx : Context) (s : String) :
    pgContextHandler ctx s = scanRun ctx s.data := rfl

theorem wfCtx_of_none {c : Context} (h : c.dollarQuoted = none) : WfCtx c := by
  intro tag htag
  rw [h] at htag
  exact absurd htag (by simp)

theorem findSub_some_hit {ne : List Char} :
    ∀ {hay : List Char} {i : Nat}, findSub ne hay = some i → ne.isPrefixOf (hay.drop i) := by
  intro hay
  induction hay with
  | nil =>
    intro i h
    simp only [findSub] at h
    split at h
    · rename_i hp
      cases h
      simpa using hp
    · cases h
  | cons c cs ih =>
    intro i h
    simp only [findSub] at h
    split at h
    · rename_i hp
      cases h
      simpa using hp
    · rcases Option.map_eq_some'.mp h with ⟨j, hj, rfl⟩
      simpa using ih hj

theorem findSub_none_not {ne : List Char} :
    ∀ {hay : List Char}, findSub ne hay = none → ∀ i, ¬ ne.isPrefixOf (hay.drop i) := by
  intro hay
  induction hay with
  | nil =>
    intro h i
    simp only [findSub] at h
    split at h
    · cases h
    · rename_i hp
      simpa using hp
  | cons c cs ih =>
    intro h i
    simp only [findSub] at h
    split at h
    · cases h
    · rename_i hp
      rcases i with _ | j
      · simpa using hp
      · exact ih (Option.map_eq_none'.mp h) j

theorem findSub_of_first {ne : List Char} :
    ∀ {hay : List Char} {i : Nat}, ne.isPrefixOf (hay.drop i) →
      (∀ j < i, ¬ ne.isPrefixOf (hay.drop j)) → findSub ne hay = some i := by
  intro hay
  induction hay with
  | nil =>
    intro i hp hmin
    rcases i with _ | j
    · simp only [List.drop] at hp
      simp [findSub, hp]
    · exact absurd (by simpa using hp) (by simpa using hmin 0 (Nat.succ_pos j))
  | cons c cs ih =>
    intro i hp hmin
    rcases i with _ | j
    · simp only [List.drop] at hp
      simp [findSub, hp]
    · have h0 : ¬ ne.isPrefixOf (c :: cs) := by simpa using hmin 0 (Nat.succ_pos j)
      have hj : findSub ne cs = some j :=
        ih (by simpa using hp) (fun j' hj' => by simpa using hmin (j' + 1) (by omega))
      simp [findSub, h0, hj]

theorem findCharIn_some_spec {set : List Char} :
    ∀ {hay : List Char} {i : Nat}, findCharIn set hay = some i →
      ∃ c cs, hay.drop i = c :: cs ∧ c ∈ set := by
  intro hay
  induction hay with
  | nil => intro i h; cases h
  | cons c cs ih =>
    intro i h
    simp only [findCharIn] at h
    split at h
    · rename_i hc
      cases h
      exact ⟨c, cs, rfl, hc⟩
    · rcases Option.map_eq_some'.mp h with ⟨j, hj, rfl⟩
      simpa using ih hj

theorem findTwo_some_spec :
    ∀ {hay : List Char} {i : Nat}, findTwo hay = some i →
      [Char.ofNat 47, Char.ofNat 42].isPrefixOf (hay.drop i) = true
        ∨ [Char.ofNat 42, Char.ofNat 47].isPrefixOf (hay.drop i) = true := by
  intro hay
  induction hay with
  | nil => intro i h; cases h
  | cons c cs ih =>
    intro i h
    simp only [findTwo] at h
    split at h
    · rename_i hc
      cases h
      simpa using hc
    · rcases Option.map_eq_some'.mp h with ⟨j, hj, rfl⟩
      simpa using ih hj

theorem findTwo_none_not :
    ∀ {hay : List Char}, findTwo hay = none → ∀ i,
      ¬ [Char.ofNat 47, Char.ofNat 42].isPrefixOf (hay.drop i) = true
        ∧ ¬ [Char.ofNat 42, Char.ofNat 47].isPrefixOf (hay.drop i) = true := by
  intro hay
  induction hay with
  | nil =>
    intro _ i
    constructor <;> simp [List.isPrefixOf]
  | cons c cs ih =>
    intro h i
    simp only [findTwo] at h
    split at h
    · cases h
    · rename_i hc
      rcases i with _ | j
      · simpa [not_or] using hc
      · exact ih (Option.map_eq_none'.mp h) j

theorem isPrefixOf_iff_exists_append :
    ∀ {l₁ l₂ : List Char}, l₁.isPrefixOf l₂ = true ↔ ∃ t, l₁ ++ t = l₂ := by
  intro l₁
  induction l₁ with
  | nil =>
    intro l₂
    simp [List.isPrefixOf]
  | cons c cs ih =>
    intro l₂
    cases l₂ with
    | nil => simp [List.isPrefixOf]
    | cons d ds =>
      simp only [List.isPrefixOf, Bool.and_eq_true, beq_iff_eq, ih]
      constructor
      · rintro ⟨rfl, t, rfl⟩
        exact ⟨t, rfl⟩
      · rintro ⟨t, ht⟩
        injection ht with h1 h2
        exact ⟨h1, t, h2⟩

theorem isPrefixOf_length {l₁ l₂ : List Char} (h : l₁.isPrefixOf l₂) :
    l₁.length ≤ l₂.length := by
  rcases isPrefixOf_iff_exists_append.mp h with ⟨t, rfl⟩
  simp

theorem take_len_takeWhile (p : Char → Bool) (l : List Char) :
    l.take (l.takeWhile p).length = l.takeWhile p := by
  induction l with
  | nil => rfl
  | cons c cs ih =>
    simp only [List.takeWhile_cons]
    cases hp : p c
    · simp
    · simp [List.take_succ_cons, ih]

theorem dollarTag_some_spec :
    ∀ {r tag : List Char}, dollarTag r = some tag →
      tag.isPrefixOf r = true ∧ 2 ≤ tag.length := by
  intro r tag h
  match r with
  | [] => cases h
  | c :: cs =>
    simp only [dollarTag] at h
    split at h
    · rename_i hc
      subst hc
      split at h
      · rename_i d rest hdrop
        split at h
        · rename_i hd
          cases h
          subst hd
          refine ⟨?_, by simp⟩
          rw [isPrefixOf_iff_exists_append]
          have hcs : cs = cs.takeWhile isTagLetter ++ ('$' :: rest) := by
            conv_lhs => rw [← List.take_append_drop (cs.takeWhile isTagLetter).length cs]
            rw [take_len_takeWhile, hdrop]
          refine ⟨rest, ?_⟩
          conv_rhs => rw [hcs]
          simp
        · cases h
      · cases h
    · cases h

theorem drop_drop_length_lt {rem : List Char} {i k : Nat} (hk : 0 < k)
    (hne : rem.drop i ≠ []) : ((rem.drop i).drop k).length < rem.length := by
  have hi : i < rem.length := by
    by_contra hle
    exact hne (List.drop_eq_nil_of_le (by omega))
  simp only [List.length_drop]
  omega

theorem string_mk_ne_empty {cs : List Char} (h : cs ≠ []) : String.mk cs ≠ "" := by
  intro heq
  exact h (congrArg String.data heq)

/-- Each loop iteration of the scanner that does not break consumes at
least one character and preserves well-formedness of the context. -/
theorem scanStep_spec {c : Context} {rem : List Char} (hwf : WfCtx c)
    {c' : Context} {rem' : List Char} (h : scanStep c rem = some (c', rem')) :
    rem'.length < rem.length ∧ WfCtx c' := by
  simp only [scanStep] at h
  split at h
  · -- dollar-quoted region
    rename_i tag hq
    split at h
    · cases h
    · rename_i i hfind
      cases h
      have hne : tag ≠ "" := hwf tag hq
      have hpre := findSub_some_hit hfind
      have hlen : 1 ≤ tag.data.length := by
        cases hd : tag.data with
        | nil => exact absurd (by apply String.ext; simp [hd]) hne
        | cons a l => simp
      have hle : tag.data.length ≤ (rem.drop i).length := isPrefixOf_length hpre
      refine ⟨?_, wfCtx_of_none rfl⟩
      simp only [List.length_drop] at hle ⊢
      have : tag.length = tag.data.length := rfl
      omega
  · -- not dollar-quoted
    rename_i hq
    split at h
    · -- escaped single quote
      split at h
      · cases h
      · rename_i i hfind
        rcases findCharIn_some_spec hfind with ⟨ch, tl, hdrop, hmem⟩
        have hne : rem.drop i ≠ [] := by simp [hdrop]
        split at h
        · cases h
          exact ⟨drop_drop_length_lt (by omega) hne, hwf⟩
        · split at h
          · cases h
            exact ⟨drop_drop_length_lt (by omega) hne, hwf⟩
          · cases h
            refine ⟨drop_drop_length_lt (by omega) hne, ?_⟩
            intro t ht
            exact hwf t ht
    · split at h
      · -- single quote
        split at h
        · cases h
        · rename_i i hfind
          have hpre := findSub_some_hit hfind
          have hne : rem.drop i ≠ [] := by
            intro hnil
            rw [hnil] at hpre
            simp [List.isPrefixOf] at hpre
          split at h
          · cases h
            exact ⟨drop_drop_length_lt (by omega) hne, hwf⟩
          · cases h
            refine ⟨drop_drop_length_lt (by omega) hne, ?_⟩
            intro t ht
            exact hwf t ht
      · split at h
        · -- block comment
          split at h
          · cases h
          · rename_i i hfind
            have hpre := findTwo_some_spec hfind
            have hne : rem.drop i ≠ [] := by
              intro hnil
              rw [hnil] at hpre
              simp [List.isPrefixOf] at hpre
            split at h
            · cases h
              refine ⟨drop_drop_length_lt (by omega) hne, ?_⟩
              intro t ht
              exact hwf t ht
            · cases h
              refine ⟨drop_drop_length_lt (by omega) hne, ?_⟩
              intro t ht
              exact hwf t ht
        · split at h
          · -- line comment
            split at h
            · cases h
            · rename_i i hfind
              cases h
              have hpre := findSub_some_hit hfind
              have hne : rem.drop i ≠ [] := by
                intro hnil
                rw [hnil] at hpre
                simp [List.isPrefixOf] at hpre
              have hi : i < rem.length := by
                by_contra hle
                exact hne (List.drop_eq_nil_of_le (by omega))
              refine ⟨?_, ?_⟩
              · simp only [List.length_drop]
                omega
              · intro t ht
                exact hwf t ht
          · -- plain state
            split at h
            · cases h
            · rename_i i hfind
              rcases findCharIn_some_spec hfind with ⟨ch, tl, hdrop, hmem⟩
              have hne : rem.drop i ≠ [] := by simp [hdrop]
              split at h
              · rename_i tag htag
                cases h
                rcases dollarTag_some_spec htag with ⟨hpre, hlen⟩
                refine ⟨drop_drop_length_lt (by omega) hne, ?_⟩
                intro t ht
                simp only at ht
                cases ht
                apply string_mk_ne_empty
                intro hnil
                rw [hnil] at hlen
                simp at hlen
              · split at h
                · cases h
                  refine ⟨drop_drop_length_lt (by omega) hne, ?_⟩
                  intro t ht
                  exact hwf t ht
                · split at h
                  · cases h
                    refine ⟨drop_drop_length_lt (by omega) hne, ?_⟩
                    intro t ht
                    exact hwf t ht
                  · split at h
                    · cases h
                      refine ⟨drop_drop_length_lt (by omega) hne, ?_⟩
                      intro t ht
                      exact hwf t ht
                    · split at h
                      · cases h
                        refine ⟨drop_drop_length_lt (by omega) hne, ?_⟩
                        intro t ht
                        exact hwf t ht
                      · cases h
                        refine ⟨drop_drop_length_lt (by omega) hne, ?_⟩
                        intro t ht
                        exact hwf t ht

/-- The scanner loop's result does not depend on the fuel, once the fuel
exceeds the remaining input length. -/
theorem scanLoop_stable :
    ∀ (n : Nat) (c : Context) (rem : List Char) (f₁ f₂ : Nat), WfCtx c →
      rem.length ≤ n → rem.length < f₁ → rem.length < f₂ →
      scanLoop f₁ c rem = scanLoop f₂ c rem := by
  intro n
  induction n with
  | zero =>
    intro c rem f₁ f₂ _ hn h1 h2
    have : rem = [] := List.length_eq_zero.mp (by omega)
    subst this
    match f₁, f₂, h1, h2 with
    | a + 1, b + 1, _, _ => simp [scanLoop]
  | succ n ih =>
    intro c rem f₁ f₂ hwf hn h1 h2
    match f₁, f₂, h1, h2 with
    | a + 1, b + 1, h1, h2 =>
      simp only [scanLoop]
      split
      · rfl
      · rename_i hne
        have hrne : rem ≠ [] := by
          intro hnil
          rw [hnil] at hne
          simp at hne
        match hstep : scanStep c rem with
        | none => rfl
        | some (c2, rem2) =>
          rcases scanStep_spec hwf hstep with ⟨hlt, hwf2⟩
          exact ih c2 rem2 a b hwf2 (by omega) (by omega) (by omega)

theorem scanRun_nil (c : Context) : scanRun c [] = c := rfl

/-- When the pattern search fails, the loop breaks with the context as is. -/
theorem scanRun_break {c : Context} {rem : List Char}
    (h : scanStep c rem = none) : scanRun c rem = c := by
  unfold scanRun scanLoop
  split
  · rfl
  · rw [h]

/-- Under well-formedness, scanning steps once and continues on the rest. -/
theorem scanRun_step {c : Context} {rem : List Char} (hwf : WfCtx c)
    {c' : Context} {rem' : List Char} (h : scanStep c rem = some (c', rem')) :
    scanRun c rem = scanRun c' rem' := by
  rcases scanStep_spec hwf h with ⟨hlt, hwf'⟩
  have hrne : rem ≠ [] := by
    intro hnil
    subst hnil
    simp at hlt
  unfold scanRun
  conv_lhs => rw [show rem.length + 1 = rem.length + 1 from rfl]
  rw [show scanLoop (rem.length + 1) c rem = scanLoop rem.length c' rem' by
    simp only [scanLoop]
    rw [if_neg (by simpa using hrne), h]]
  exact scanLoop_stable rem'.length c' rem' rem.length (rem'.length + 1) hwf'
    (le_refl _) hlt (by omega)

theorem slashChar_eq : Char.ofNat 47 = '/' := by decide

theorem starChar_eq : Char.ofNat 42 = '*' := by decide

theorem scanStep_dollar_none {ctx : Context} {tag : String} {rem : List Char}
    (hq : ctx.dollarQuoted = some tag) (hno : findSub tag.data rem = none) :
    scanStep ctx rem = none := by
  simp [scanStep, hq, hno]

theorem scanStep_dollar_found {ctx : Context} {tag : String} {rem : List Char} {i : Nat}
    (hq : ctx.dollarQuoted = some tag) (hf : findSub tag.data rem = some i) :
    scanStep ctx rem = some ({ ctx with dollarQuoted := none }, rem.drop (i + tag.length)) := by
  simp [scanStep, hq, hf]

theorem findTwo_of_first :
    ∀ {hay : List Char} {i : Nat},
      ([Char.ofNat 47, Char.ofNat 42].isPrefixOf (hay.drop i) = true
        ∨ [Char.ofNat 42, Char.ofNat 47].isPrefixOf (hay.drop i) = true) →
      (∀ j < i, ¬ [Char.ofNat 47, Char.ofNat 42].isPrefixOf (hay.drop j) = true
        ∧ ¬ [Char.ofNat 42, Char.ofNat 47].isPrefixOf (hay.drop j) = true) →
      findTwo hay = some i := by
  intro hay
  induction hay with
  | nil =>
    intro i hp _
    rcases i with _ | j <;>
      · simp only [List.drop] at hp
        rcases hp with hp | hp <;> simp [List.isPrefixOf] at hp
  | cons c cs ih =>
    intro i hp hmin
    rcases i with _ | j
    · simp only [List.drop] at hp
      rcases hp with hp | hp <;> simp [findTwo, hp]
    · have h0 := hmin 0 (Nat.succ_pos j)
      simp only [List.drop] at h0
      have hj : findTwo cs = some j :=
        ih (by simpa using hp) (fun j' hj' => by simpa using hmin (j' + 1) (by omega))
      have hne0 : ¬ ([Char.ofNat 47, Char.ofNat 42].isPrefixOf (c :: cs)
          || [Char.ofNat 42, Char.ofNat 47].isPrefixOf (c :: cs)) = true := by
        simp only [Bool.or_eq_true]
        rintro (hx | hx)
        · exact h0.1 hx
        · exact h0.2 hx
      simp only [findTwo]
      rw [if_neg hne0, hj]
      rfl

theorem takeWhile_letters {letters : List Char} (h : ∀ c ∈ letters, isTagLetter c = true) :
    ∀ rest : List Char, (letters ++ '$' :: rest).takeWhile isTagLetter = letters := by
  induction letters with
  | nil =>
    intro rest
    simp [List.takeWhile, show isTagLetter '$' = false by decide]
  | cons c ls ih =>
    intro rest
    have hc : isTagLetter c = true := h c (by simp)
    simp only [List.cons_append, List.takeWhile_cons, hc]
    rw [ih (fun d hd => h d (by simp [hd]))]
    simp

theorem dollarTag_opens {letters : List Char} (h : ∀ c ∈ letters, isTagLetter c = true)
    (rest : List Char) :
    dollarTag ('$' :: (letters ++ '$' :: rest)) = some ('$' :: (letters ++ ['$'])) := by
  simp only [dollarTag, if_pos rfl]
  rw [takeWhile_letters h rest, List.drop_left]
  simp

theorem drop_tag_length {letters rest : List Char} :
    ('$' :: (letters ++ '$' :: rest)).drop ('$' :: (letters ++ ['$'])).length = rest := by
  have : ('$' :: (letters ++ '$' :: rest)) = ('$' :: (letters ++ ['$'])) ++ rest := by simp
  rw [this, List.drop_left]

theorem scanRun_dollar_persist {ctx : Context} {tag : String} {rem : List Char}
    (hq : ctx.dollarQuoted = some tag)
    (hno : ∀ i, ¬ tag.data.isPrefixOf (rem.drop i) = true) :
    scanRun ctx rem = ctx := by
  apply scanRun_break
  apply scanStep_dollar_none hq
  match h : findSub tag.data rem with
  | none => rfl
  | some i => exact absurd (findSub_some_hit h) (hno i)

theorem scanRun_dollar_close {ctx : Context} {tag : String} {a b : List Char}
    (hq : ctx.dollarQuoted = some tag) (hne : tag ≠ "")
    (hmin : ∀ j < a.length, ¬ tag.data.isPrefixOf ((a ++ tag.data ++ b).drop j) = true) :
    scanRun ctx (a ++ tag.data ++ b) = scanRun { ctx with dollarQuoted := none } b := by
  have hpre : tag.data.isPrefixOf ((a ++ tag.data ++ b).drop a.length) = true := by
    rw [List.append_assoc, List.drop_left, isPrefixOf_iff_exists_append]
    exact ⟨b, rfl⟩
  have hfind : findSub tag.data (a ++ tag.data ++ b) = some a.length :=
    findSub_of_first hpre hmin
  have hwf : WfCtx ctx := by
    intro t ht
    rw [hq] at ht
    cases ht
    exact hne
  have hdrop : (a ++ tag.data ++ b).drop (a.length + tag.length) = b := by
    have h1 : a.length + tag.length = (a ++ tag.data).length := by
      simp [List.length_append]
    rw [h1, List.drop_left]
  have hstep := scanStep_dollar_found hq hfind
  rw [hdrop] at hstep
  exact scanRun_step hwf hstep

theorem scanStep_plain_open {letters rest : List Char}
    (h : ∀ c ∈ letters, isTagLetter c = true) :
    scanStep emptyContext ('$' :: (letters ++ '$' :: rest)) =
      some ({ emptyContext with
                dollarQuoted := some (String.mk ('$' :: (letters ++ ['$']))) }, rest) := by
  have hfc : findCharIn ['-', '$', 'E', squoteChar, '/'] ('$' :: (letters ++ '$' :: rest)) =
      some 0 := by
    simp [findCharIn]
  have hdt := dollarTag_opens h rest
  have hlen : ('$' :: (letters ++ '$' :: rest)).drop ('$' :: (letters ++ ['$'])).length = rest :=
    drop_tag_length
  simp only [scanStep, emptyContext, hfc, List.drop_zero, hdt, hlen]
  simp

theorem scanStep_inBlock {ctx : Context} (h1 : ctx.dollarQuoted = none)
    (h2 : ctx.inEscapedSingleQuote = false) (h3 : ctx.inSingleQuote = false)
    (h4 : ctx.inBlockComment ≠ 0) {rem : List Char} {i : Nat}
    (hf : findTwo rem = some i) :
    scanStep ctx rem =
      (if (rem.drop i).take 2 = [Char.ofNat 47, Char.ofNat 42]
       then some ({ ctx with inBlockComment := ctx.inBlockComment + 1 }, (rem.drop i).drop 2)
       else some ({ ctx with inBlockComment := ctx.inBlockComment - 1 }, (rem.drop i).drop 2)) := by
  simp [scanStep, h1, h2, h3, h4, hf]

theorem scanStep_inBlock_none {ctx : Context} (h1 : ctx.dollarQuoted = none)
    (h2 : ctx.inEscapedSingleQuote = false) (h3 : ctx.inSingleQuote = false)
    (h4 : ctx.inBlockComment ≠ 0) {rem : List Char} (hf : findTwo rem = none) :
    scanStep ctx rem = none := by
  simp [scanStep, h1, h2, h3, h4, hf]

theorem scanRun_block_incr {ctx : Context} {pre rest : List Char}
    (h1 : ctx.dollarQuoted = none) (h2 : ctx.inEscapedSingleQuote = false)
    (h3 : ctx.inSingleQuote = false) (h4 : ctx.inBlockComment ≠ 0)
    (hmin : ∀ j < pre.length,
      ¬ [Char.ofNat 47, Char.ofNat 42].isPrefixOf ((pre ++ '/' :: '*' :: rest).drop j) = true
        ∧ ¬ [Char.ofNat 42, Char.ofNat 47].isPrefixOf ((pre ++ '/' :: '*' :: rest).drop j) = true) :
    scanRun ctx (pre ++ '/' :: '*' :: rest) =
      scanRun { ctx with inBlockComment := ctx.inBlockComment + 1 } rest := by
  have hdrop : (pre ++ '/' :: '*' :: rest).drop pre.length = '/' :: '*' :: rest :=
    List.drop_left pre _
  have hf : findTwo (pre ++ '/' :: '*' :: rest) = some pre.length := by
    apply findTwo_of_first _ hmin
    rw [hdrop]
    left
    rw [slashChar_eq, starChar_eq, isPrefixOf_iff_exists_append]
    exact ⟨rest, rfl⟩
  have hstep := scanStep_inBlock h1 h2 h3 h4 hf
  rw [hdrop] at hstep
  rw [if_pos (by simp [slashChar_eq, starChar_eq])] at hstep
  exact scanRun_step (wfCtx_of_none h1) hstep

theorem scanRun_block_decr {ctx : Context} {pre rest : List Char}
    (h1 : ctx.dollarQuoted = none) (h2 : ctx.inEscapedSingleQuote = false)
    (h3 : ctx.inSingleQuote = false) (h4 : ctx.inBlockComment ≠ 0)
    (hmin : ∀ j < pre.length,
      ¬ [Char.ofNat 47, Char.ofNat 42].isPrefixOf ((pre ++ '*' :: '/' :: rest).drop j) = true
        ∧ ¬ [Char.ofNat 42, Char.ofNat 47].isPrefixOf ((pre ++ '*' :: '/' :: rest).drop j) = true) :
    scanRun ctx (pre ++ '*' :: '/' :: rest) =
      scanRun { ctx with inBlockComment := ctx.inBlockComment - 1 } rest := by
  have hdrop : (pre ++ '*' :: '/' :: rest).drop pre.length = '*' :: '/' :: rest :=
    List.drop_left pre _
  have hf : findTwo (pre ++ '*' :: '/' :: rest) = some pre.length := by
    apply findTwo_of_first _ hmin
    rw [hdrop]
    right
    rw [slashChar_eq, starChar_eq, isPrefixOf_iff_exists_append]
    exact ⟨rest, rfl⟩
  have hstep := scanStep_inBlock h1 h2 h3 h4 hf
  rw [hdrop] at hstep
  rw [if_neg (by simp [slashChar_eq, starChar_eq])] at hstep
  exact scanRun_step (wfCtx_of_none h1) hstep

theorem scanRun_block_break {ctx : Context} {rem : List Char}
    (h1 : ctx.dollarQuoted = none) (h2 : ctx.inEscapedSingleQuote = false)
    (h3 : ctx.inSingleQuote = false) (h4 : ctx.inBlockComment ≠ 0)
    (hno : ∀ i, ¬ [Char.ofNat 47, Char.ofNat 42].isPrefixOf (rem.drop i) = true
        ∧ ¬ [Char.ofNat 42, Char.ofNat 47].isPrefixOf (rem.drop i) = true) :
    scanRun ctx rem = ctx := by
  apply scanRun_break
  apply scanStep_inBlock_none h1 h2 h3 h4
  match h : findTwo rem with
  | none => rfl
  | some i =>
    rcases findTwo_some_spec h with hp | hp
    · exact absurd hp (hno i).1
    · exact absurd hp (hno i).2

theorem scanRun_plain_open {letters rest : List Char}
    (h : ∀ c ∈ letters, isTagLetter c = true) :
    scanRun emptyContext ('$' :: (letters ++ '$' :: rest)) =
      scanRun { emptyContext with
        dollarQuoted := some (String.mk ('$' :: (letters ++ ['$']))) } rest :=
  scanRun_step (wfCtx_of_none rfl) (scanStep_plain_open h)

/-- Claim C4: with a dollar-quote tag set, the region is closed only by a
character-for-character occurrence of that exact tag: if the tag does not
occur in the text (in particular when a different tag such as `$other$`
occurs instead), the whole text is consumed and the dollar-quoted state
persists into the next scanner call; if it occurs, the scanner consumes
through its first occurrence, clears the tag and scans the remainder from
the cleared state.  A tag is `$`, a run of ASCII letters, and `$` (the
empty tag `$$` included), as the opening conjunct shows: from the plain
state, such a tag opens a dollar-quoted block carrying exactly that tag. -/
theorem dollar_quote_region_spec :
    (∀ (ctx : Context) (tag s : String), ctx.dollarQuoted = some tag →
        (∀ i, ¬ tag.data.isPrefixOf (s.data.drop i) = true) →
        pgContextHandler ctx s = ctx)
    ∧ (∀ (ctx : Context) (tag : String) (a b : List Char), ctx.dollarQuoted = some tag →
        tag ≠ "" →
        (∀ j < a.length, ¬ tag.data.isPrefixOf ((a ++ tag.data ++ b).drop j) = true) →
        pgContextHandler ctx (String.mk (a ++ tag.data ++ b)) =
          scanRun { ctx with dollarQuoted := none } b)
    ∧ (∀ (letters rest : List Char), (∀ c ∈ letters, isTagLetter c = true) →
        pgContextHandler emptyContext (String.mk ('$' :: (letters ++ '$' :: rest))) =
          scanRun { emptyContext with
            dollarQuoted := some (String.mk ('$' :: (letters ++ ['$']))) } rest)
    ∧ (pgContextHandler { emptyContext with dollarQuoted := some "$tag$" } "x $other$ y"
        = { emptyContext with dollarQuoted := some "$tag$" })
    ∧ (pgContextHandler { emptyContext with dollarQuoted := some "$tag$" } "x$tag$y"
        = emptyContext)
    ∧ (pgContextHandler { emptyContext with dollarQuoted := some "$$" } "ab$$cd"
        = emptyContext) := by
  refine ⟨?_, ?_, ?_, by decide, by decide, by decide⟩
  · intro ctx tag s hq hno
    rw [pgContextHandler_eq_scanRun]
    exact scanRun_dollar_persist hq hno
  · intro ctx tag a b hq hne hmin
    rw [pgContextHandler_eq_scanRun]
    exact scanRun_dollar_close hq hne hmin
  · intro letters rest h
    rw [pgContextHandler_eq_scanRun]
    exact scanRun_plain_open h

theorem dollar_quote_region_spec_witness :
    pgContextHandler { emptyContext with dollarQuoted := some "$t$" } "SELECT nope"
        = { emptyContext with dollarQuoted := some "$t$" }
    ∧ pgContextHandler { emptyContext with dollarQuoted := some "$t$" }
          (String.mk ("ab".data ++ "$t$".data ++ "cd".data))
        = scanRun { ({ emptyContext with dollarQuoted := some "$t$" } : Context) with
            dollarQuoted := none } "cd".data
    ∧ pgContextHandler emptyContext (String.mk ('$' :: ("xy".data ++ '$' :: " z".data)))
        = scanRun { emptyContext with
            dollarQuoted := some (String.mk ('$' :: ("xy".data ++ ['$']))) } " z".data := by
  refine ⟨dollar_quote_region_spec.1 _ "$t$" _ rfl (findSub_none_not (by decide)),
    dollar_quote_region_spec.2.1 _ "$t$" "ab".data "cd".data rfl (by decide) (by decide),
    dollar_quote_region_spec.2.2.1 "xy".data " z".data (by decide)⟩

/-- Claim C5: inside a block comment, each `/*` found by the scanner increments
the nesting depth by one, each `*/` decrements it by one, and a text with
neither token is consumed with the depth persisting, so the region ends
exactly when the depth returns to 0.  Concretely, nested block comments
balance (the inner `*/` of `/* /* */ */` does not terminate the outer
comment), and a value interpolated inside any part of a nested comment is
suppressed in both `.text` and `.embed`. -/
theorem block_comment_region_spec :
    (∀ (ctx : Context) (pre rest : List Char), ctx.dollarQuoted = none →
        ctx.inEscapedSingleQuote = false → ctx.inSingleQuote = false →
        ctx.inBlockComment ≠ 0 →
        (∀ j < pre.length,
          ¬ [Char.ofNat 47, Char.ofNat 42].isPrefixOf ((pre ++ '/' :: '*' :: rest).drop j) = true
            ∧ ¬ [Char.ofNat 42, Char.ofNat 47].isPrefixOf ((pre ++ '/' :: '*' :: rest).drop j) = true) →
        scanRun ctx (pre ++ '/' :: '*' :: rest)
          = scanRun { ctx with inBlockComment := ctx.inBlockComment + 1 } rest)
    ∧ (∀ (ctx : Context) (pre rest : List Char), ctx.dollarQuoted = none →
        ctx.inEscapedSingleQuote = false → ctx.inSingleQuote = false →
        ctx.inBlockComment ≠ 0 →
        (∀ j < pre.length,
          ¬ [Char.ofNat 47, Char.ofNat 42].isPrefixOf ((pre ++ '*' :: '/' :: rest).drop j) = true
            ∧ ¬ [Char.ofNat 42, Char.ofNat 47].isPrefixOf ((pre ++ '*' :: '/' :: rest).drop j) = true) →
        scanRun ctx (pre ++ '*' :: '/' :: rest)
          = scanRun { ctx with inBlockComment := ctx.inBlockComment - 1 } rest)
    ∧ (∀ (ctx : Context) (rem : List Char), ctx.dollarQuoted = none →
        ctx.inEscapedSingleQuote = false → ctx.inSingleQuote = false →
        ctx.inBlockComment ≠ 0 →
        (∀ i, ¬ [Char.ofNat 47, Char.ofNat 42].isPrefixOf (rem.drop i) = true
            ∧ ¬ [Char.ofNat 42, Char.ofNat 47].isPrefixOf (rem.drop i) = true) →
        scanRun ctx rem = ctx)
    ∧ ((pgContextHandler emptyContext "/* /* */ */ x").inBlockComment = 0
        ∧ (pgContextHandler emptyContext "/* /* */ x").inBlockComment = 1)
    ∧ ((sqlTemplate ["a /* /* */ ", " */ b ", ""] [.val (.num 7), .val (.num 8)]).map
          (fun f => (f.text, f.values, f.embed))
        = .ok ("a /* /* */  */ b $1", [.num 8], "a /* /* */  */ b \x278\x27")) := by
  refine ⟨?_, ?_, ?_, by decide, by rfl⟩
  · intro ctx pre rest h1 h2 h3 h4 hmin
    exact scanRun_block_incr h1 h2 h3 h4 hmin
  · intro ctx pre rest h1 h2 h3 h4 hmin
    exact scanRun_block_decr h1 h2 h3 h4 hmin
  · intro ctx rem h1 h2 h3 h4 hno
    exact scanRun_block_break h1 h2 h3 h4 hno

theorem block_comment_region_spec_witness :
    scanRun { emptyContext with inBlockComment := 1 } (" x".data ++ '/' :: '*' :: "y".data)
        = scanRun { ({ emptyContext with inBlockComment := 1 } : Context) with
            inBlockComment := 1 + 1 } "y".data
    ∧ scanRun { emptyContext with inBlockComment := 2 } (" x".data ++ '*' :: '/' :: "y".data)
        = scanRun { ({ emptyContext with inBlockComment := 2 } : Context) with
            inBlockComment := 2 - 1 } "y".data
    ∧ scanRun { emptyContext with inBlockComment := 2 } " plain text ".data
        = { emptyContext with inBlockComment := 2 } := by
  refine ⟨block_comment_region_spec.1 _ " x".data "y".data rfl rfl rfl (by decide) (by decide),
    block_comment_region_spec.2.1 _ " x".data "y".data rfl rfl rfl (by decide) (by decide),
    block_comment_region_spec.2.2.1 _ " plain text ".data rfl rfl rfl (by decide) ?_⟩
  intro i
  have h : findTwo " plain text ".data = none := by decide
  exact findTwo_none_not h i

mutual

theorem render_events_suppressed (m : RenderMode) (f : QueryFragment) (st : RenderState) :
    ∀ e ∈ (render m f st).2.2, shouldIgnoreValue e.ctx = true →
      e.emitted = "" ∧ e.valsAfter = e.valsBefore := by
  cases f with
  | raw s =>
    intro e he
    simp [render] at he
  | value v =>
    intro e he hig
    simp only [render] at he
    split at he
    · simp only [List.mem_singleton] at he
      subst he
      exact ⟨rfl, rfl⟩
    · rename_i hnig
      simp only [List.mem_singleton] at he
      subst he
      exact absurd hig (by simpa using hnig)
  | ident name =>
    intro e he
    simp [render] at he
  | frags cs opts =>
    intro e he hig
    simp only [render] at he
    split at he
    · exact renderList_events_suppressed m cs st e he hig
    · exact renderList_events_suppressed m cs st e he hig

theorem renderList_events_suppressed (m : RenderMode) (cs : List QueryFragment)
    (st : RenderState) :
    ∀ e ∈ (renderList m cs st).2.2, shouldIgnoreValue e.ctx = true →
      e.emitted = "" ∧ e.valsAfter = e.valsBefore := by
  cases cs with
  | nil =>
    intro e he
    simp [renderList] at he
  | cons f fs =>
    intro e he hig
    simp only [renderList, List.mem_append] at he
    rcases he with he | he
    · exact render_events_suppressed m f st e he hig
    · exact renderList_events_suppressed m fs (render m f st).2.1 e he hig

end

/-- Claim C1: in every render mode and for every fragment tree, a value leaf whose
scan context — as accumulated by the raw-text leaves rendered before it in
left-to-right order — lies inside a line comment, block comment, single- or
escaped-single-quoted literal, or dollar-quoted block, renders as the empty
string and appends nothing to the bound-values array. -/
theorem value_suppression_spec (m : RenderMode) (f : QueryFragment) :
    ∀ e ∈ QueryFragment.events m f, shouldIgnoreValue e.ctx = true →
      e.emitted = "" ∧ e.valsAfter = e.valsBefore :=
  render_events_suppressed m f freshState

theorem value_suppression_spec_witness :
    suppressedEventExample.emitted = ""
    ∧ suppressedEventExample.valsAfter = suppressedEventExample.valsBefore := by
  have hmem : suppressedEventExample ∈
      QueryFragment.events .text (.frags [.raw "\x27", .value (.num 1)] {}) := by
    have heq : QueryFragment.events .text (.frags [.raw "\x27", .value (.num 1)] {}) =
        [suppressedEventExample] := rfl
    rw [heq]
    exact List.mem_singleton.mpr rfl
  exact value_suppression_spec .text _ _ hmem (by decide)

theorem modeEmit_ctx (m : RenderMode) (v : JSValue) (st : RenderState) :
    (modeEmit m v st).2.ctx = st.ctx := by
  cases m <;> rfl

theorem render_frags_snd (m : RenderMode) (cs : List QueryFragment) (opts : SewingPattern)
    (st : RenderState) :
    (render m (.frags cs opts) st).2 = (renderList m cs st).2 := by
  simp only [render]
  split <;> rfl

mutual

theorem render_mode_trace (m₁ m₂ : RenderMode) (f : QueryFragment) (st₁ st₂ : RenderState)
    (h : st₁.ctx = st₂.ctx) :
    (render m₁ f st₁).2.1.ctx = (render m₂ f st₂).2.1.ctx ∧
      (render m₁ f st₁).2.2.map eventKey = (render m₂ f st₂).2.2.map eventKey := by
  cases f with
  | raw s =>
    simp only [render]
    exact ⟨by rw [h], by trivial⟩
  | value v =>
    simp only [render, h]
    split
    · exact ⟨h, by simp [eventKey, h]⟩
    · refine ⟨?_, by simp [eventKey, h]⟩
      rw [modeEmit_ctx, modeEmit_ctx, h]
  | ident name =>
    simp only [render]
    exact ⟨h, by trivial⟩
  | frags cs opts =>
    rw [render_frags_snd, render_frags_snd]
    exact renderList_mode_trace m₁ m₂ cs st₁ st₂ h

theorem renderList_mode_trace (m₁ m₂ : RenderMode) (cs : List QueryFragment)
    (st₁ st₂ : RenderState) (h : st₁.ctx = st₂.ctx) :
    (renderList m₁ cs st₁).2.1.ctx = (renderList m₂ cs st₂).2.1.ctx ∧
      (renderList m₁ cs st₁).2.2.map eventKey = (renderList m₂ cs st₂).2.2.map eventKey := by
  cases cs with
  | nil => exact ⟨h, rfl⟩
  | cons f fs =>
    have h1 := render_mode_trace m₁ m₂ f st₁ st₂ h
    have h2 := renderList_mode_trace m₁ m₂ fs (render m₁ f st₁).2.1 (render m₂ f st₂).2.1 h1.1
    simp only [renderList, List.map_append]
    exact ⟨h2.1, by rw [h1.2, h2.2]⟩

end

theorem range'_split (a k₁ k₂ : Nat) :
    List.range' a (k₁ + k₂) = List.range' a k₁ ++ List.range' (a + k₁) k₂ := by
  induction k₁ generalizing a with
  | zero => simp
  | succ k ih =>
    rw [show a + (k + 1) = (a + 1) + k by omega, show k + 1 + k₂ = (k + k₂) + 1 by omega]
    rw [List.range'_succ, List.range'_succ, ih (a + 1), List.cons_append]

mutual

theorem render_text_spec (f : QueryFragment) (st : RenderState) :
    (render .text f st).2.1.idx =
        st.idx + ((render .text f st).2.2.filter nonSuppressed).length
    ∧ ((render .text f st).2.2.filter nonSuppressed).map ValueEvent.emitted =
        (List.range' st.idx (((render .text f st).2.2.filter nonSuppressed).length)).map
          (fun i => "$" ++ toString i)
    ∧ (render .text f st).2.1.vals = st.vals := by
  cases f with
  | raw s => simp [render]
  | value v =>
    simp only [render]
    split
    · rename_i hig
      simp [nonSuppressed, List.filter, hig]
    · rename_i hig
      have hns : nonSuppressed
          ({ ctx := st.ctx, value := v, emitted := "$" ++ toString st.idx,
             valsBefore := st.vals, valsAfter := st.vals } : ValueEvent) = true := by
        simp only [nonSuppressed]
        simpa using hig
      simp [modeEmit, List.filter, hns, List.range'_succ]
  | ident name => simp [render]
  | frags cs opts =>
    have h := render_frags_snd .text cs opts st
    rw [show (render .text (.frags cs opts) st).2.1 = (renderList .text cs st).2.1 by rw [h],
      show (render .text (.frags cs opts) st).2.2 = (renderList .text cs st).2.2 by rw [h]]
    exact renderList_text_spec cs st

theorem renderList_text_spec (cs : List QueryFragment) (st : RenderState) :
    (renderList .text cs st).2.1.idx =
        st.idx + ((renderList .text cs st).2.2.filter nonSuppressed).length
    ∧ ((renderList .text cs st).2.2.filter nonSuppressed).map ValueEvent.emitted =
        (List.range' st.idx (((renderList .text cs st).2.2.filter nonSuppressed).length)).map
          (fun i => "$" ++ toString i)
    ∧ (renderList .text cs st).2.1.vals = st.vals := by
  cases cs with
  | nil => simp [renderList]
  | cons f fs =>
    have h1 := render_text_spec f st
    have h2 := renderList_text_spec fs (render .text f st).2.1
    simp only [renderList, List.filter_append, List.length_append, List.map_append]
    refine ⟨by omega, ?_, by rw [h2.2.2, h1.2.2]⟩
    rw [h1.2.1, h2.2.1, h1.1, range'_split, List.map_append]

end

mutual

theorem render_values_spec (f : QueryFragment) (st : RenderState) :
    (render .values f st).2.1.vals =
        st.vals ++ ((render .values f st).2.2.filter nonSuppressed).map ValueEvent.value
    ∧ (render .values f st).2.1.idx = st.idx := by
  cases f with
  | raw s => simp [render]
  | value v =>
    simp only [render]
    split
    · rename_i hig
      simp [nonSuppressed, List.filter, hig]
    · rename_i hig
      have hns : nonSuppressed
          ({ ctx := st.ctx, value := v, emitted := "",
             valsBefore := st.vals, valsAfter := st.vals ++ [v] } : ValueEvent) = true := by
        simp only [nonSuppressed]
        simpa using hig
      simp [modeEmit, List.filter, hns]
  | ident name => simp [render]
  | frags cs opts =>
    have h := render_frags_snd .values cs opts st
    rw [show (render .values (.frags cs opts) st).2.1 = (renderList .values cs st).2.1 by rw [h],
      show (render .values (.frags cs opts) st).2.2 = (renderList .values cs st).2.2 by rw [h]]
    exact renderList_values_spec cs st

theorem renderList_values_spec (cs : List QueryFragment) (st : RenderState) :
    (renderList .values cs st).2.1.vals =
        st.vals ++ ((renderList .values cs st).2.2.filter nonSuppressed).map ValueEvent.value
    ∧ (renderList .values cs st).2.1.idx = st.idx := by
  cases cs with
  | nil => simp [renderList]
  | cons f fs =>
    have h1 := render_values_spec f st
    have h2 := renderList_values_spec fs (render .values f st).2.1
    simp only [renderList, List.filter_append, List.map_append]
    refine ⟨?_, by rw [h2.2, h1.2]⟩
    rw [h2.1, h1.1, List.append_assoc]

end

theorem keytrace_filter :
    ∀ {evs₁ evs₂ : List ValueEvent}, evs₁.map eventKey = evs₂.map eventKey →
      (evs₁.filter nonSuppressed).map ValueEvent.value =
          (evs₂.filter nonSuppressed).map ValueEvent.value
        ∧ (evs₁.filter nonSuppressed).length = (evs₂.filter nonSuppressed).length := by
  intro evs₁
  induction evs₁ with
  | nil =>
    intro evs₂ h
    cases evs₂ with
    | nil => simp
    | cons e' es' => simp at h
  | cons e es ih =>
    intro evs₂ h
    cases evs₂ with
    | nil => simp at h
    | cons e' es' =>
      simp only [List.map_cons, List.cons.injEq] at h
      have htl := ih h.2
      have hns : nonSuppressed e = nonSuppressed e' := by
        have hc : e.ctx = e'.ctx := congrArg Prod.fst h.1
        simp only [nonSuppressed, hc]
      have hval : e.value = e'.value := congrArg Prod.snd h.1
      cases hcase : nonSuppressed e with
      | true =>
        have hcase' : nonSuppressed e' = true := hns ▸ hcase
        simp [List.filter_cons, hcase, hcase', hval, htl.1, htl.2]
      | false =>
        have hcase' : nonSuppressed e' = false := hns ▸ hcase
        simp [List.filter_cons, hcase, hcase', htl.1, htl.2]

/-- Claim C2: for every fragment tree, the non-suppressed value-leaf events of the
placeholder-text render are exactly as many as the elements of `.values`;
they emit the sequential placeholders `$1, $2, ...` in order, each
non-suppressed leaf incrementing the counter by exactly one (the final
counter is `1 + n`); and the i-th element of `.values` is the value of the
leaf that emitted `$i`. -/
theorem placeholder_alignment_spec (f : QueryFragment) :
    ((QueryFragment.events .text f).filter nonSuppressed).length
        = (QueryFragment.values f).length
    ∧ (render .text f freshState).2.1.idx = 1 + (QueryFragment.values f).length
    ∧ ((QueryFragment.events .text f).filter nonSuppressed).map ValueEvent.emitted
        = (List.range' 1 ((QueryFragment.values f).length)).map (fun i => "$" ++ toString i)
    ∧ ((QueryFragment.events .text f).filter nonSuppressed).map ValueEvent.value
        = QueryFragment.values f := by
  have hV := render_values_spec f freshState
  have htr := render_mode_trace .text .values f freshState freshState rfl
  have hkv := keytrace_filter htr.2
  have hT := render_text_spec f freshState
  have hvals : QueryFragment.values f =
      (((render .values f freshState).2.2).filter nonSuppressed).map ValueEvent.value := by
    have h1 := hV.1
    simpa [QueryFragment.values, freshState] using h1
  have hev : QueryFragment.events .text f = (render .text f freshState).2.2 := rfl
  have hlen : ((QueryFragment.events .text f).filter nonSuppressed).length
      = (QueryFragment.values f).length := by
    rw [hev, hvals, List.length_map, hkv.2]
  refine ⟨hlen, ?_, ?_, ?_⟩
  · rw [← hlen, hev]
    have := hT.1
    simpa [freshState] using this
  · rw [← hlen, hev]
    have := hT.2.1
    simpa [freshState] using this
  · rw [hev, hvals]
    exact hkv.1

/-- Claim C3: `makeValue` returns an interpolated value unchanged when it is
already a fragment, so a previously-built fragment splices its tree into the
enclosing template rather than being wrapped as an opaque value leaf; in
particular the concrete round trip gives `A B $1 C`. -/
theorem fragment_splice_spec :
    (∀ f : QueryFragment, makeValue (.frag f) = some f)
    ∧ ((do
          let inner ← sqlTemplate ["B ", ""] [.val (.num 1)]
          let outer ← sqlTemplate ["A ", " C"] [.frag inner]
          pure outer.text) : Except String String) = .ok "A B $1 C" :=
  ⟨fun _ => rfl, rfl⟩

/-- Claim C6: rendering an unmutated tree twice in the same mode yields identical
output, and each accessor is the pure render of the tree from the freshly
allocated all-empty scan context (counter 1, empty values array), exactly as
`#compile` passes `context: {}` on every access — no scan state survives
from one render call into another. -/
theorem render_idempotence_spec (f : QueryFragment) :
    (f.text, f.values, f.sqlText, f.statement, f.embed)
        = (f.text, f.values, f.sqlText, f.statement, f.embed)
    ∧ f.text = (render .text f { ctx := emptyContext, idx := 1, vals := [] }).1
    ∧ f.values = (render .values f { ctx := emptyContext, idx := 1, vals := [] }).2.1.vals
    ∧ f.sqlText = (render .sql f { ctx := emptyContext, idx := 1, vals := [] }).1
    ∧ f.statement = (render .statement f { ctx := emptyContext, idx := 1, vals := [] }).1
    ∧ f.embed = (render .embed f { ctx := emptyContext, idx := 1, vals := [] }).1 :=
  ⟨rfl, rfl, rfl, rfl, rfl, rfl⟩

theorem pgStringList_eq_map (es : List JSValue) : pgStringList es = es.map pgString := by
  induction es with
  | nil => rfl
  | cons e es ih => simp [pgStringList, ih]

/-- Claim C8 counterexample: a plain object does not render as its JSON
stringification passed through literal quoting — `pgString` passes the
object's default string conversion (`[object Object]`) to the literal
quoter instead. -/
theorem embed_object_json_counterexample :
    pgString (.obj [("a", .num 1)]) ≠ quoteLiteral (jsonStringify (.obj [("a", .num 1)]))
    ∧ pgString (.obj [("a", .num 1)]) = quoteLiteral "[object Object]" := by
  constructor
  · decide
  · rfl

/-- Claim C8 (amended): in the embed mode a non-suppressed value leaf renders as
`pgString` of its value, which dispatches by type: `NULL` for null,
`true`/`false` for booleans, `ARRAY[...]` recursively for arrays, the
literal-quoted `toJSON()` result for an object that has a `toJSON` method,
the literal-quoted default string conversion (`[object Object]`) for a
plain object, and the literal-quoted string form for any other value. -/
theorem embed_value_rendering_spec :
    (∀ (v : JSValue) (st : RenderState), shouldIgnoreValue st.ctx = false →
        (render .embed (.value v) st).1 = pgString v)
    ∧ pgString .null = "NULL"
    ∧ (∀ b, pgString (.bool b) = if b then "true" else "false")
    ∧ (∀ es, pgString (.arr es)
        = "ARRAY[" ++ String.intercalate "," (es.map pgString) ++ "]")
    ∧ (∀ fs, pgString (.obj fs) = quoteLiteral "[object Object]")
    ∧ (∀ fs j, pgString (.objJ fs j) = quoteLiteral j)
    ∧ (∀ n, pgString (.num n) = quoteLiteral (toString n))
    ∧ (∀ s, pgString (.str s) = quoteLiteral s) := by
  refine ⟨?_, rfl, fun b => rfl, ?_, fun fs => rfl, fun fs j => rfl, fun n => rfl, fun s => rfl⟩
  · intro v st h
    simp [render, h, modeEmit]
  · intro es
    simp [pgString, pgStringList_eq_map]

theorem embed_value_rendering_spec_witness :
    (render .embed (.value (.arr [.null, .bool true, .num 3])) freshState).1
      = pgString (.arr [.null, .bool true, .num 3]) :=
  embed_value_rendering_spec.1 (.arr [.null, .bool true, .num 3]) freshState (by decide)

theorem filterMap_value_length (l : List (Option JSValue)) :
    (l.filterMap (fun ov => ov.map QueryFragment.value)).length
      = (l.filter Option.isSome).length := by
  induction l with
  | nil => rfl
  | cons ov tl ih => cases ov <;> simp [List.filterMap_cons, List.filter_cons, ih]

/-- Claim C7: a field of a row whose value is `undefined` is omitted on both
sides of `buildInsert`: `buildKeys` renders the key list from the
defined-valued entries only (the `undefined`-valued key does not occur in
it), and the VALUES tuple `buildValues` builds for the row contains one
value leaf per defined entry, none for the `undefined` one. -/
theorem insert_undefined_field_spec (row : List (String × Option JSValue)) (k : String)
    (hk : (k, none) ∈ row) (hnd : (row.map Prod.fst).Nodup) :
    buildKeys [row] = .ok (setSewingPattern
        (.frags (((row.filter (fun p => p.2.isSome)).map Prod.fst).map
          (fun key => .ident key)) {}) "(" ", " ")" "")
    ∧ k ∉ (row.filter (fun p => p.2.isSome)).map Prod.fst
    ∧ buildValues [rowValues row] = .ok (.frags [.frags
        [.raw "VALUES ",
         setSewingPattern (.frags [joinGlue (.frags ((rowValues row).filterMap
            (fun ov => ov.map QueryFragment.value)) {}) ", "] {}) "(" "), (" ")" "",
         .raw ""] {}] {})
    ∧ ((rowValues row).filterMap (fun ov => ov.map QueryFragment.value)).length
        = (row.filter (fun p => p.2.isSome)).length := by
  refine ⟨?_, ?_, ?_, ?_⟩
  · simp [buildKeys]
  · intro hmem
    rcases List.mem_map.mp hmem with ⟨p, hpf, hpk⟩
    have hpin : p ∈ row := (List.mem_filter.mp hpf).1
    have hps : p.2.isSome := by simpa using (List.mem_filter.mp hpf).2
    have hpe : p = (k, none) :=
      List.inj_on_of_nodup_map hnd hpin hk (by simpa using hpk)
    rw [hpe] at hps
    simp at hps
  · simp only [buildValues]
    rw [if_neg (by simp)]
    rw [if_neg (by simp)]
    rfl
  · rw [filterMap_value_length]
    simp only [rowValues, List.filter_map, List.length_map]
    rfl

theorem insert_undefined_field_spec_witness :
    "a" ∉ (([(("a" : String), (none : Option JSValue)),
      ("b", some (.num 10))]).filter (fun p => p.2.isSome)).map Prod.fst :=
  (insert_undefined_field_spec [("a", none), ("b", some (.num 10))] "a"
    (List.Mem.head _) (by decide)).2.1

theorem sqlTemplate_two (t₁ t₂ : String) (v : Interp) :
    sqlTemplate [t₁, t₂] [v] = .ok (.frags [.frags
      (([some (.raw t₁), makeValue v, some (.raw t₂)] :
          List (Option QueryFragment)).filterMap id) {}] {}) := rfl

/-- Claim C9: `buildValues` errors synchronously at composition time exactly when
its input array is empty (the empty-input error) or its rows do not all
have the first row's length (the shape-mismatch error); on every non-empty
equal-length input it returns, without error, the fragment rendering
`VALUES (v1, v2, ...), (v1, v2, ...), ...`. -/
theorem buildValues_error_spec :
    (buildValues [] = .error "buildValues: Array must contain elements at least one")
    ∧ (∀ fvs : List (List (Option JSValue)),
        (∃ e, buildValues fvs = .error e) ↔
          (fvs = [] ∨ ∃ row ∈ fvs, row.length ≠ (fvs.headD []).length))
    ∧ (∀ fvs : List (List (Option JSValue)), fvs ≠ [] →
        (∀ row ∈ fvs, row.length = (fvs.headD []).length) →
        buildValues fvs = .ok (.frags [.frags
          [.raw "VALUES ",
           setSewingPattern (.frags (fvs.map (fun v => joinGlue
              (.frags (v.filterMap (fun ov => ov.map QueryFragment.value)) {}) ", ")) {})
             "(" "), (" ")" "",
           .raw ""] {}] {}))
    ∧ ((buildValues [[some (.num 1), some (.num 2)], [some (.num 3), some (.num 4)]]).map
          (fun f => (f.text, f.values))
        = .ok ("VALUES ($1, $2), ($3, $4)", [.num 1, .num 2, .num 3, .num 4]))
    ∧ (buildValues [[some (.num 1)], [some (.num 2), some (.num 3)]]
        = .error "buildValues: Array must all be the same length") := by
  refine ⟨rfl, ?_, ?_, rfl, rfl⟩
  · intro fvs
    by_cases hfvs : fvs = []
    · subst hfvs
      exact ⟨fun _ => Or.inl rfl, fun _ => ⟨_, rfl⟩⟩
    · simp only [buildValues]
      rw [if_neg (by simpa [List.length_eq_zero] using hfvs)]
      by_cases hany : fvs.any (fun row => row.length != (fvs.headD []).length) = true
      · rw [if_pos hany]
        constructor
        · intro _
          refine Or.inr ?_
          rcases List.any_eq_true.mp hany with ⟨row, hr, hb⟩
          exact ⟨row, hr, by simpa [bne_iff_ne] using hb⟩
        · intro _
          exact ⟨_, rfl⟩
      · rw [if_neg hany]
        rw [sqlTemplate_two]
        constructor
        · rintro ⟨e, he⟩
          cases he
        · rintro (h | ⟨row, hr, hne⟩)
          · exact absurd h hfvs
          · refine absurd ?_ hany
            exact List.any_eq_true.mpr ⟨row, hr, by simpa [bne_iff_ne] using hne⟩
  · intro fvs hfvs hlen
    simp only [buildValues]
    rw [if_neg (by simpa [List.length_eq_zero] using hfvs)]
    rw [if_neg ?hne]
    case hne =>
      intro hany
      rcases List.any_eq_true.mp hany with ⟨row, hr, hb⟩
      exact absurd (hlen row hr) (by simpa [bne_iff_ne] using hb)
    rw [sqlTemplate_two]
    rfl

theorem buildValues_error_spec_witness :
    buildValues [[some (.num 5)]] = .ok (.frags [.frags
      [.raw "VALUES ",
       setSewingPattern (.frags [joinGlue (.frags [.value (.num 5)] {}) ", "] {})
         "(" "), (" ")" "",
       .raw ""] {}] {}) := by
  have h := buildValues_error_spec.2.2.1 [[some (.num 5)]] (by simp)
    (fun row hr => by rcases List.mem_singleton.mp hr with rfl; rfl)
  exact h

theorem getD_eq_headD_drop (l : List (Option QueryFragment)) :
    ∀ k : Nat, l.getD k none = (l.drop k).headD none := by
  induction l with
  | nil => intro k; cases k <;> rfl
  | cons x xs ih =>
    intro k
    cases k with
    | zero => rfl
    | succ k => simp only [List.getD_cons_succ, List.drop_succ_cons, ih k]

theorem enumFrom_sew (vals : List (Option QueryFragment)) :
    ∀ (ts : List (Option QueryFragment)) (k : Nat),
      ((List.enumFrom (k + 1) ts).flatMap
          (fun p => if p.1 = 0 then [p.2] else [vals.getD (p.1 - 1) none, p.2]))
        = sewRest ts (vals.drop k) := by
  intro ts
  induction ts with
  | nil => intro k; rfl
  | cons t ts ih =>
    intro k
    simp only [List.enumFrom_cons, List.flatMap_cons]
    rw [if_neg (by omega)]
    have h1 : k + 1 - 1 = k := by omega
    rw [h1, ih (k + 1)]
    simp only [sewRest]
    rw [getD_eq_headD_drop]
    have h2 : (vals.drop k).drop 1 = vals.drop (k + 1) := by
      rw [List.drop_drop]
    rw [h2]
    rfl

theorem sewTemplate_cons (t : Option QueryFragment) (ts vals : List (Option QueryFragment))
    (h : ts.length = vals.length) :
    sewTemplateTextsAndValues (t :: ts) vals = .ok (t :: sewRest ts vals) := by
  simp only [sewTemplateTextsAndValues]
  rw [if_neg (by simp [h])]
  congr 1
  rw [show (t :: ts).enum = (0, t) :: List.enumFrom 1 ts from rfl]
  simp only [List.flatMap_cons, if_pos rfl]
  rw [show (1 : Nat) = 0 + 1 from rfl, enumFrom_sew vals ts 0]
  simp

theorem sewRest_spec :
    ∀ (ts : List String) (vs : List Interp),
      ((sewRest (ts.map (fun t => some (.raw t))) (vs.map makeValue)).filterMap id)
        = templateChildrenRest ts vs := by
  intro ts
  induction ts with
  | nil => intro vs; rfl
  | cons t ts ih =>
    intro vs
    cases vs with
    | nil =>
      have h := ih []
      simp only [List.map_nil] at h
      simp only [List.map_cons, List.map_nil, sewRest, templateChildrenRest]
      simp [List.filterMap_cons, h]
    | cons v vs =>
      simp only [List.map_cons, sewRest, templateChildrenRest]
      cases hv : makeValue v <;>
        simp [List.filterMap_cons, hv, ih vs]

theorem sqlTemplate_children (texts : List String) (vals : List Interp)
    (h : texts.length = vals.length + 1) :
    sqlTemplate texts vals = .ok (.frags [.frags (templateChildren texts vals) {}] {}) := by
  cases texts with
  | nil => simp at h
  | cons t ts =>
    simp only [sqlTemplate, List.map_cons]
    rw [sewTemplate_cons _ _ _ (by simpa using h)]
    simp only [Except.map]
    simp [List.filterMap_cons, sewRest_spec, templateChildren]

/-- Claim C10 counterexample: removing an `undefined` interpolation from a
template merges the two adjacent text segments into one, but the scanner
processes raw-text leaves separately, so the merged template can scan
differently: `-` + `-` around a dropped `undefined` leaves the context
plain and the next value emits `$1`, while the merged `--` opens a line
comment and suppresses the value — the rendered outputs differ. -/
theorem undefined_removal_counterexample :
    (sqlTemplate ["-", "-", ""] [.undef, .val (.num 1)]).map QueryFragment.text = .ok "--$1"
    ∧ (sqlTemplate ["-", "-", ""] [.undef, .val (.num 1)]).map QueryFragment.values
        = .ok [.num 1]
    ∧ (sqlTemplate ["--", ""] [.val (.num 1)]).map QueryFragment.text = .ok "--"
    ∧ (sqlTemplate ["--", ""] [.val (.num 1)]).map QueryFragment.values = .ok []
    ∧ ("--$1" : String) ≠ "--" :=
  ⟨rfl, rfl, rfl, rfl, by decide⟩

/-- Claim C10 (amended): an `undefined` interpolation (that is not a fragment)
produces no leaf at all — `makeValue` maps it to `undefined` and the sewn
child list drops it, so the raw-text segments on either side stand adjacent
in the child list (each still scanned as its own leaf) and no placeholder,
bound value, or embedded literal can arise from it; likewise `push`/`append`
with an `undefined` argument leaves the child list unchanged. -/
theorem undefined_interpolation_spec :
    makeValue .undef = none
    ∧ (∀ f : QueryFragment, fragPush f [.undef] = f)
    ∧ (∀ (texts : List String) (vals : List Interp), texts.length = vals.length + 1 →
        sqlTemplate texts vals = .ok (.frags [.frags (templateChildren texts vals) {}] {}))
    ∧ (∀ (t : String) (ts : List String) (vs : List Interp),
        templateChildrenRest (t :: ts) (.undef :: vs) = .raw t :: templateChildrenRest ts vs) := by
  refine ⟨rfl, ?_, sqlTemplate_children, fun t ts vs => rfl⟩
  intro f
  cases f <;> simp [fragPush, makeRaw]

theorem undefined_interpolation_spec_witness :
    sqlTemplate ["x", "y"] [.undef]
      = .ok (.frags [.frags (templateChildren ["x", "y"] [.undef]) {}] {}) :=
  undefined_interpolation_spec.2.2.1 ["x", "y"] [.undef] (by decide)
